import Mathlib

/-!
Shallow embedding of the Profile-Assistant plugin core
(modules `base/aspect_ratio.py`, `base/profile.py`, `base/configuration.py`,
`base/ini.py`, `assistant.py`).

Strings are modelled as `List Char`; Python exceptions as `Except`;
fallible parses as `Option`.  File contents are `List Char`; the mod-list
file rewrite is modelled content-to-content.
-/

/-- A Python string, modelled as a list of characters. -/
abbrev Str := List Char

/-- Decidable equality of `Except` values, used to evaluate the model on
concrete inputs. -/
instance {e a : Type} [DecidableEq e] [DecidableEq a] : DecidableEq (Except e a) := fun u v =>
  match u, v with
  | .ok x, .ok y =>
    if h : x = y then .isTrue (by rw [h]) else .isFalse (fun hc => h (Except.ok.inj hc))
  | .error x, .error y =>
    if h : x = y then .isTrue (by rw [h]) else .isFalse (fun hc => h (Except.error.inj hc))
  | .ok _, .error _ => .isFalse (fun hc => Except.noConfusion hc)
  | .error _, .ok _ => .isFalse (fun hc => Except.noConfusion hc)

/-! ## Python string primitives -/

/-- The whitespace characters recognised by Python `str.strip()` with no
argument (space, tab, newline, carriage return, vertical tab, form feed). -/
def pyIsSpace (c : Char) : Bool :=
  c == ' ' || c == '\t' || c == '\n' || c == '\r' || c == '\x0b' || c == '\x0c'

/-- Remove leading whitespace, as the first half of Python `str.strip()`. -/
def stripStart (s : Str) : Str := s.dropWhile pyIsSpace

/-- Remove trailing whitespace, as the second half of Python `str.strip()`. -/
def stripEnd (s : Str) : Str := (s.reverse.dropWhile pyIsSpace).reverse

/-- Python `str.strip()`: removes leading and trailing whitespace. -/
def pyStrip (s : Str) : Str := stripEnd (stripStart s)

/-- Python `str.split(sep)` for a one-character separator: splits at every
occurrence of the separator, keeping empty pieces. -/
def pySplit (sep : Char) (s : Str) : List Str := List.splitOn sep s

/-- ASCII decimal digit test. -/
def isAsciiDigit (c : Char) : Bool := '0' ≤ c && c ≤ '9'

/-- Numeric value of an ASCII digit. -/
def digitVal (c : Char) : Nat := c.toNat - '0'.toNat

/-- Value of a string of decimal digits. -/
def digitsToNat (s : Str) : Nat := s.foldl (fun a c => 10 * a + digitVal c) 0

/-- A valid Python integer-literal digit run: non-empty, made of ASCII
digits and underscores, starting and ending with a digit, with no two
consecutive underscores. -/
def validDigits (s : Str) : Bool :=
  (match s with | [] => false | c :: _ => isAsciiDigit c)
    && (match s.getLast? with | some c => isAsciiDigit c | none => false)
    && s.all (fun c => isAsciiDigit c || c == '_')
    && (s.zip s.tail).all (fun p => !(p.1 == '_' && p.2 == '_'))

/-- Model of the Python builtin `int(str)`: strips surrounding whitespace,
accepts an optional single sign followed by ASCII decimal digits with
single underscores between digits; any other input raises `ValueError`,
modelled as `none`. -/
def pyInt (s : Str) : Option Int :=
  match pyStrip s with
  | '+' :: rest => if validDigits rest then some (digitsToNat (rest.filter (fun c => !(c == '_')))) else none
  | '-' :: rest => if validDigits rest then some (-(digitsToNat (rest.filter (fun c => !(c == '_'))) : Int)) else none
  | rest => if validDigits rest then some (digitsToNat (rest.filter (fun c => !(c == '_')))) else none

/-- `int_or_none` from `base/ini.py`: `int(value)` or `None` on `ValueError`. -/
def int_or_none (value : Str) : Option Int := pyInt value

/-! ## Mod-list file rewrite (`base/profile.py`, `Profile.modify_modlist_file`) -/

/-- Python `file.readlines()`: splits the content into lines, each keeping
its terminating newline; the final line may lack one. -/
def readlines : Str → List Str
  | [] => []
  | c :: cs =>
    if c == '\n' then ['\n'] :: readlines cs
    else
      match readlines cs with
      | [] => [[c]]
      | l :: ls => (c :: l) :: ls

/-- The body of the per-line loop of `Profile.modify_modlist_file`:
strip the line; drop it when shorter than two characters; otherwise the
first character is the sign and the stripped remainder the mod name, and
the emitted line is `+name`, `-name` or `sign name` followed by a newline,
according to membership of the name in `enabled` / `disabled`. -/
def processLine (enabled disabled : List Str) (line : Str) : Option Str :=
  match pyStrip line with
  | sign :: c :: rest =>
    let name := pyStrip (c :: rest)
    if name ∈ enabled then some ('+' :: (name ++ ['\n']))
    else if name ∈ disabled then some ('-' :: (name ++ ['\n']))
    else some (sign :: (name ++ ['\n']))
  | _ => none

/-- The loop of `Profile.modify_modlist_file` over the list of raw lines,
appending each emitted line to the accumulator `modified_lines`. -/
def Profile.modify_modlist_loop (enabled disabled : List Str) : List Str → List Str → List Str
  | [], acc => acc
  | line :: rest, acc =>
    match processLine enabled disabled line with
    | none => Profile.modify_modlist_loop enabled disabled rest acc
    | some out => Profile.modify_modlist_loop enabled disabled rest (acc ++ [out])

/-- The rewritten line list, starting from an empty accumulator. -/
def Profile.modify_modlist_lines (enabled disabled : List Str) (lines : List Str) : List Str :=
  Profile.modify_modlist_loop enabled disabled lines []

/-- `Profile.modify_modlist_file` as a content-to-content function:
read the lines of the file, rewrite them, and write the concatenation
back. -/
def Profile.modify_modlist_content (enabled disabled : List Str) (content : Str) : Str :=
  (Profile.modify_modlist_lines enabled disabled (readlines content)).flatten

/-! ## Aspect ratios (`base/aspect_ratio.py`) -/

/-- An aspect ratio, stored reduced by the greatest common divisor. -/
structure AspectRatio where
  x : Int
  y : Int
deriving Repr, DecidableEq

/-- `AspectRatio.__init__`: raises `ValueError` when either component is
zero; otherwise stores both components floor-divided by their gcd
(Python `//`, exact here since the gcd divides both). -/
def AspectRatio.mk_checked (x y : Int) : Except Str AspectRatio :=
  if x = 0 ∨ y = 0 then
    .error ("Aspect ratio dimensions must be non-zero.".toList)
  else
    let g : Int := Int.gcd x y
    .ok ⟨x.fdiv g, y.fdiv g⟩

/-- Splitting a string on `:` into exactly two integer-parseable pieces,
as done inside the `try` blocks of `AspectRatio.is_equal` and
`AspectRatio.from_string`; `none` models the caught `ValueError`. -/
def parsePair (s : Str) : Option (Int × Int) :=
  match pySplit ':' s with
  | [xs, ys] =>
    match pyInt xs, pyInt ys with
    | some x, some y => some (x, y)
    | _, _ => none
  | _ => none

/-- `AspectRatio.is_equal`: parses `ratio_str`, raising `ValueError` on a
malformed string; reduces the parsed pair by its gcd (raising
`ZeroDivisionError` when both components are zero, since Python divides
by `gcd == 0` there) and compares with the stored pair. -/
def AspectRatio.is_equal (ar : AspectRatio) (ratio_str : Str) : Except Str Bool :=
  match parsePair ratio_str with
  | none => .error ("Invalid format for aspect ratio. Use <x>:<y> format.".toList)
  | some (xr, yr) =>
    let g : Int := Int.gcd xr yr
    if g = 0 then .error ("ZeroDivisionError".toList)
    else .ok (decide (ar.x = xr.fdiv g ∧ ar.y = yr.fdiv g))

/-- `AspectRatio.from_string`: `None` input gives `None`; a string that
does not parse as two integers gives `None` (the `ValueError` from the
`try` block is caught); otherwise the constructor is called outside the
`try` block, so its `ValueError` propagates. -/
def AspectRatio.from_string (ratio_str : Option Str) : Except Str (Option AspectRatio) :=
  match ratio_str with
  | none => .ok none
  | some s =>
    match parsePair s with
    | none => .ok none
    | some (x, y) => (AspectRatio.mk_checked x y).map some

/-! ## Configuration (`base/configuration.py`) -/

/-- A configuration rule, as built by `Configuration.__init__`. -/
structure Configuration where
  name : Str
  profile : Option Str
  enable_mods : List Str
  disable_mods : List Str
  min_vram : Option Int := none
  max_vram : Option Int := none
  aspect_ratio : Option AspectRatio := none
  system_language : Option Str := none
deriving Repr, DecidableEq

/-- `Configuration.check_vram`: both bounds absent matches everything;
only a lower bound requires `min_vram <= vram`; only an upper bound
requires `max_vram > vram`; both require `max_vram > vram >= min_vram`. -/
def Configuration.check_vram (c : Configuration) (vram : Int) : Bool :=
  match c.min_vram, c.max_vram with
  | none, none => true
  | some mn, none => decide (mn ≤ vram)
  | none, some mx => decide (mx > vram)
  | some mn, some mx => decide (mx > vram ∧ vram ≥ mn)

/-- `Configuration.check_aspect_ratio`: an absent predicate matches;
otherwise defer to `AspectRatio.is_equal` (which may raise). -/
def Configuration.check_aspect_ratio (c : Configuration) (ratio_str : Str) : Except Str Bool :=
  match c.aspect_ratio with
  | none => .ok true
  | some ar => ar.is_equal ratio_str

/-- `Configuration.check_system_language`: an absent predicate matches;
otherwise exact string equality. -/
def Configuration.check_system_language (c : Configuration) (language : Str) : Bool :=
  match c.system_language with
  | none => true
  | some l => l == language

/-- `Configuration.check`: conjunction of the three predicate checks,
short-circuiting left to right as the Python `and` does. -/
def Configuration.check (c : Configuration) (vram : Int) (ratio_str : Str) (language : Str) : Except Str Bool :=
  match c.check_aspect_ratio ratio_str with
  | .error e => .error e
  | .ok a => .ok (a && c.check_vram vram && c.check_system_language language)

/-- The mod-list group mapping, an insertion-ordered dictionary from group
name to list of mod names. -/
abbrev ModLists := List (Str × List Str)

/-- The resolution loops of `Configuration.do`: concatenate the mod lists
of the referenced group names, skipping (with a logged error) names
missing from the mapping. -/
def resolveMods (names : List Str) (mod_lists : ModLists) : List Str :=
  names.foldl
    (fun acc m =>
      match List.lookup m mod_lists with
      | some l => acc ++ l
      | none => acc)
    []

/-- The referenced group names that hit the `has not existing mod list`
error branches of `Configuration.do`. -/
def doMissingRefs (c : Configuration) (mod_lists : ModLists) : List Str :=
  c.enable_mods.filter (fun m => (List.lookup m mod_lists).isNone)
    ++ c.disable_mods.filter (fun m => (List.lookup m mod_lists).isNone)

/-- The mod-toggling part of `Configuration.do`: resolve both group-name
lists, return `none` when both resolved collections are empty (the
rewrite is skipped), else deduplicate each and drop from the disabled
collection every name also present in the enabled collection; the result
is the `(enabled, filtered_disabled)` pair passed to
`Profile.modify_modlist_file`. -/
def Configuration.doModAction (c : Configuration) (mod_lists : ModLists) : Option (List Str × List Str) :=
  let enabled := resolveMods c.enable_mods mod_lists
  let disabled := resolveMods c.disable_mods mod_lists
  if enabled = [] ∧ disabled = [] then none
  else
    let e := enabled.eraseDups
    let d := disabled.eraseDups
    some (e, d.filter (fun item => decide (item ∉ e)))

/-! ## Configuration loading (`Configuration.load_configurations`) -/

/-- The key-value content of one INI section, restricted to the keys the
loader reads: `config.get(section, key, fallback="")` for the scalar keys
(an absent key is the empty string) and `config.getlist(section, "Mod",
fallback=[])` for the accumulated multi-value `Mod` key. -/
structure IniSection where
  sname : Str
  profileV : Str := []
  enableModsV : Str := []
  disableModsV : Str := []
  minVramV : Str := []
  maxVramV : Str := []
  aspectRatioV : Str := []
  systemLanguageV : Str := []
  modsV : List Str := []
deriving Repr

/-- The parsed rule file: the raw value of `General`/`Settings`
(fallback empty string) and the list of sections. -/
structure IniConfig where
  settingsValue : Str
  sections : List IniSection
deriving Repr

/-- Look up a section by name. -/
def IniConfig.findSection (cfg : IniConfig) (n : Str) : Option IniSection :=
  cfg.sections.find? (fun s => s.sname == n)

/-- `config.has_section(n)`. -/
def IniConfig.has_section (cfg : IniConfig) (n : Str) : Bool :=
  (cfg.findSection n).isSome

/-- The comma-split-and-filter applied to `EnableMods` / `DisableMods`
values: `[item for item in v.split(",") if item and item.strip()]`. -/
def splitModsValue (v : Str) : List Str :=
  (pySplit ',' v).filter (fun item => !item.isEmpty && !(pyStrip item).isEmpty)

/-- Add each name of `names` as a key of the mapping when not already
present, bound to the empty list, preserving insertion order. -/
def addEmptyKeys (mod_lists : ModLists) (names : List Str) : ModLists :=
  names.foldl
    (fun m k => if (List.lookup k m).isSome then m else m ++ [(k, [])])
    mod_lists

/-- One iteration of the section loop of
`Configuration.load_configurations`: skip names with no section;
otherwise read the keys, normalise empty strings to `None`, build the
`Configuration` (parsing the aspect ratio through
`AspectRatio.from_string`, whose constructor errors propagate), and
register every referenced group name as a key of the mapping. -/
def loadStep (cfg : IniConfig) (acc : List Configuration × ModLists) (sectionName : Str) :
    Except Str (List Configuration × ModLists) :=
  match cfg.findSection sectionName with
  | none => .ok acc
  | some sec =>
    let profile : Option Str := if sec.profileV = [] then none else some sec.profileV
    let enable_mods := splitModsValue sec.enableModsV
    let disable_mods := splitModsValue sec.disableModsV
    let min_vram := int_or_none sec.minVramV
    let max_vram := int_or_none sec.maxVramV
    let aspect_opt : Option Str := if sec.aspectRatioV = [] then none else some sec.aspectRatioV
    let system_language : Option Str := if sec.systemLanguageV = [] then none else some sec.systemLanguageV
    match AspectRatio.from_string aspect_opt with
    | .error e => .error e
    | .ok ar =>
      let ml := addEmptyKeys (addEmptyKeys acc.2 enable_mods) disable_mods
      .ok (acc.1 ++ [⟨sectionName, profile, enable_mods, disable_mods, min_vram, max_vram, ar, system_language⟩], ml)

/-- The section loop of `Configuration.load_configurations`. -/
def loadLoop (cfg : IniConfig) : List Str → List Configuration × ModLists → Except Str (List Configuration × ModLists)
  | [], acc => .ok acc
  | n :: rest, acc =>
    match loadStep cfg acc n with
    | .error e => .error e
    | .ok next => loadLoop cfg rest next

/-- The second loop of `Configuration.load_configurations`: for every key
of the mapping whose section exists, replace its value by the section
`Mod` list; keys with no section keep their empty list. -/
def fillModLists (cfg : IniConfig) (mod_lists : ModLists) : ModLists :=
  mod_lists.map
    (fun kv =>
      match cfg.findSection kv.1 with
      | some sec => (kv.1, sec.modsV)
      | none => kv)

/-- `Configuration.load_configurations` on an already-parsed rule file
(the missing-file early return is outside this model): iterate the
comma-split `Settings` names, then resolve the group sections. -/
def Configuration.load_configurations (cfg : IniConfig) : Except Str (List Configuration × ModLists) :=
  match loadLoop cfg (pySplit ',' cfg.settingsValue) ([], []) with
  | .error e => .error e
  | .ok (settings, mod_lists) => .ok (settings, fillModLists cfg mod_lists)

/-! ## Orchestrator (`assistant.py`) -/

/-- The externally persisted state touched by `Configuration.do`: the
active-profile pointer of the host INI and the content of the mod-list
file of the active profile. -/
structure EnvState where
  selected_profile : Option Str
  modlist : Str
deriving Repr, DecidableEq

/-- `Configuration.do` as a state transition: switch the profile when set
and present among the available profiles (otherwise only log), then
rewrite the mod-list file unless both resolved collections are empty. -/
def Configuration.do (c : Configuration) (profiles : List Str) (mod_lists : ModLists) (s : EnvState) : EnvState :=
  let s1 :=
    match c.profile with
    | some p => if p ∈ profiles then { s with selected_profile := some p } else s
    | none => s
  match c.doModAction mod_lists with
  | none => s1
  | some (e, d) => { s1 with modlist := Profile.modify_modlist_content e d s1.modlist }

/-- `ProfileAssistant.set_configuration`: iterate the loaded
configurations in order, applying `do` to every one whose `check`
passes; an exception raised by `check` aborts the run. -/
def set_configuration (profiles : List Str) (mod_lists : ModLists)
    (vram : Int) (ratio_str : Str) (language : Str) :
    List Configuration → EnvState → Except Str EnvState
  | [], s => .ok s
  | c :: rest, s =>
    match c.check vram ratio_str language with
    | .error e => .error e
    | .ok b =>
      set_configuration profiles mod_lists vram ratio_str language rest
        (if b then c.do profiles mod_lists s else s)

/-! ## Concrete instances used by the claim statements -/

/-- A configuration whose only predicates are `min_vram = 8` and
`max_vram = 12`. -/
def cVram8to12 : Configuration :=
  { name := "V".toList, profile := none, enable_mods := [], disable_mods := [],
    min_vram := some 8, max_vram := some 12 }

/-- A configuration enabling and disabling the same group name `A`. -/
def cGroupA : Configuration :=
  { name := "GA".toList, profile := none,
    enable_mods := ["A".toList], disable_mods := ["A".toList] }

/-- A group mapping sending group `A` to the single mod `modX`. -/
def mlGroupA : ModLists := [("A".toList, ["modX".toList])]

/-- A predicate-free configuration selecting profile `P1`. -/
def cProf1 : Configuration :=
  { name := "C1".toList, profile := some ("P1".toList), enable_mods := [], disable_mods := [] }

/-- A predicate-free configuration selecting profile `P2`. -/
def cProf2 : Configuration :=
  { name := "C2".toList, profile := some ("P2".toList), enable_mods := [], disable_mods := [] }

/-- A parsed rule file with one rule section `Low` referencing the group
`LowGroup`, which has no section of its own. -/
def iniLow : IniConfig :=
  { settingsValue := "Low".toList,
    sections := [{ sname := "Low".toList, enableModsV := "LowGroup".toList }] }

/-! ## Lemmas about Python `strip` -/

theorem dropWhile_idem {α : Type} (q : α → Bool) (l : List α) :
    (l.dropWhile q).dropWhile q = l.dropWhile q := by
  induction l with
  | nil => rfl
  | cons a t ih =>
    by_cases h : q a <;> simp [List.dropWhile_cons, h, ih]

theorem dropWhile_eq_cons_not {α : Type} (q : α → Bool) (l : List α) (c : α) (t : List α)
    (h : l.dropWhile q = c :: t) : q c = false := by
  induction l with
  | nil => simp [List.dropWhile] at h
  | cons a l ih =>
    rw [List.dropWhile_cons] at h
    by_cases ha : q a
    · simp only [ha, if_true] at h
      exact ih h
    · simp only [ha, if_false] at h
      obtain ⟨rfl, rfl⟩ := List.cons.inj h
      simpa using ha

theorem stripEnd_reverse_eq (s : Str) : (stripEnd s).reverse = s.reverse.dropWhile pyIsSpace := by
  simp [stripEnd]

theorem stripStart_idem (s : Str) : stripStart (stripStart s) = stripStart s :=
  dropWhile_idem pyIsSpace s

theorem stripEnd_idem (s : Str) : stripEnd (stripEnd s) = stripEnd s := by
  simp [stripEnd, dropWhile_idem]

theorem stripStart_cons_not (c : Char) (t : Str) (h : pyIsSpace c = false) :
    stripStart (c :: t) = c :: t := by
  simp [stripStart, List.dropWhile_cons, h]

theorem stripEnd_append_not (l : Str) (d : Char) (h : pyIsSpace d = false) :
    stripEnd (l ++ [d]) = l ++ [d] := by
  simp [stripEnd, List.dropWhile_cons, h]

theorem stripEnd_append_space (l : Str) (d : Char) (h : pyIsSpace d = true) :
    stripEnd (l ++ [d]) = stripEnd l := by
  simp [stripEnd, List.dropWhile_cons, h]

theorem stripStart_eq_nil_iff (s : Str) : stripStart s = [] ↔ ∀ c ∈ s, pyIsSpace c = true := by
  simp [stripStart, List.dropWhile_eq_nil_iff]

theorem stripEnd_eq_nil_iff (s : Str) : stripEnd s = [] ↔ ∀ c ∈ s, pyIsSpace c = true := by
  rw [stripEnd]
  constructor
  · intro h c hc
    have h2 : s.reverse.dropWhile pyIsSpace = [] := by
      have := congrArg List.reverse h
      simpa using this
    exact List.dropWhile_eq_nil_iff.mp h2 c (by simpa using hc)
  · intro h
    have h2 : s.reverse.dropWhile pyIsSpace = [] :=
      List.dropWhile_eq_nil_iff.mpr (fun c hc => h c (by simpa using hc))
    simp [h2]

theorem stripStart_length_le (s : Str) : (stripStart s).length ≤ s.length :=
  (List.dropWhile_sublist pyIsSpace).length_le

theorem stripEnd_length_le (s : Str) : (stripEnd s).length ≤ s.length := by
  have h := (List.dropWhile_sublist (l := s.reverse) pyIsSpace).length_le
  simpa [stripEnd] using h

theorem stripStart_sublist (s : Str) : (stripStart s).Sublist s :=
  List.dropWhile_sublist pyIsSpace

theorem stripEnd_sublist (s : Str) : (stripEnd s).Sublist s := by
  rw [← List.reverse_sublist]
  simpa [stripEnd] using List.dropWhile_sublist (l := s.reverse) pyIsSpace

theorem pyStrip_sublist (s : Str) : (pyStrip s).Sublist s :=
  (stripEnd_sublist (stripStart s)).trans (stripStart_sublist s)

theorem stripStart_eq_self_of_length (s : Str) (h : (stripStart s).length = s.length) :
    stripStart s = s :=
  (stripStart_sublist s).eq_of_length h

theorem stripEnd_eq_self_of_length (s : Str) (h : (stripEnd s).length = s.length) :
    stripEnd s = s :=
  (stripEnd_sublist s).eq_of_length h

/-- A string equal to its own two-sided strip is equal to each one-sided
strip as well. -/
theorem strip_eq_self_parts (s : Str) (h : pyStrip s = s) :
    stripStart s = s ∧ stripEnd s = s := by
  have hlen : (pyStrip s).length = s.length := by rw [h]
  have h1 : (stripEnd (stripStart s)).length ≤ (stripStart s).length :=
    stripEnd_length_le (stripStart s)
  have h2 : (stripStart s).length ≤ s.length := stripStart_length_le s
  have hst : stripStart s = s := by
    apply stripStart_eq_self_of_length
    have : (pyStrip s).length ≤ (stripStart s).length := h1
    omega
  refine ⟨hst, ?_⟩
  have : stripEnd s = s := by
    have := h
    rw [pyStrip, hst] at this
    exact this
  exact this

/-- Stripping is idempotent. -/
theorem pyStrip_idem (s : Str) : pyStrip (pyStrip s) = pyStrip s := by
  rw [pyStrip, pyStrip]
  set u := stripStart s with hu
  have hustart : u.dropWhile pyIsSpace = u := stripStart_idem s
  obtain ⟨pre, hpre⟩ := List.dropWhile_suffix (l := u.reverse) pyIsSpace
  have hueq : u = stripEnd u ++ pre.reverse := by
    have := congrArg List.reverse hpre
    simpa [stripEnd] using this.symm
  cases hv : stripEnd u with
  | nil => simp [stripStart, stripEnd, List.dropWhile]
  | cons c t =>
    have hu2 : u.dropWhile pyIsSpace = c :: (t ++ pre.reverse) := by
      rw [hustart]
      rw [hueq, hv]
      simp
    have hc : pyIsSpace c = false := dropWhile_eq_cons_not pyIsSpace u c _ hu2
    rw [stripStart_cons_not c t hc, ← hv]
    exact stripEnd_idem u

/-- The head of a non-empty stripped string is not whitespace. -/
theorem pyStrip_head_not (s : Str) (c : Char) (t : Str) (h : pyStrip s = c :: t) :
    pyIsSpace c = false := by
  have hparts := strip_eq_self_parts (pyStrip s) (pyStrip_idem s)
  have hdrop : (pyStrip s).dropWhile pyIsSpace = c :: t := by
    have : stripStart (pyStrip s) = pyStrip s := hparts.1
    rw [stripStart] at this
    rw [this, h]
  exact dropWhile_eq_cons_not pyIsSpace (pyStrip s) c t hdrop

/-- The last character of a non-empty stripped string (seen as the head of
its reverse) is not whitespace. -/
theorem pyStrip_reverse_head_not (s : Str) (c : Char) (t : Str)
    (h : (pyStrip s).reverse = c :: t) : pyIsSpace c = false := by
  have hparts := strip_eq_self_parts (pyStrip s) (pyStrip_idem s)
  have hdrop : (pyStrip s).reverse.dropWhile pyIsSpace = c :: t := by
    have h2 : (stripEnd (pyStrip s)).reverse = (pyStrip s).reverse := by rw [hparts.2]
    rw [stripEnd_reverse_eq] at h2
    rw [h2, h]
  exact dropWhile_eq_cons_not pyIsSpace (pyStrip s).reverse c t hdrop

/-- Stripping an emitted line `sign ++ name ++ newline` recovers
`sign :: name` when the sign is not whitespace and the name is a
non-empty already-stripped string. -/
theorem pyStrip_emitted (sign : Char) (name : Str) (hs : pyIsSpace sign = false)
    (hn : name ≠ []) (hstrip : pyStrip name = name) :
    pyStrip (sign :: (name ++ ['\n'])) = sign :: name := by
  rw [pyStrip, show (sign :: (name ++ ['\n'])) = sign :: (name ++ ['\n']) from rfl]
  rw [stripStart_cons_not sign (name ++ ['\n']) hs]
  rw [show sign :: (name ++ ['\n']) = (sign :: name) ++ ['\n'] by simp]
  rw [stripEnd_append_space (sign :: name) '\n' (by decide)]
  rcases hrev : name.reverse with _ | ⟨e, t⟩
  · exact absurd (by simpa using hrev) hn
  · have he : pyIsSpace e = false := by
      apply pyStrip_reverse_head_not name e t
      rw [hstrip, hrev]
    have hrev2 : (sign :: name).reverse = e :: (t ++ [sign]) := by
      simp [hrev]
    rw [stripEnd, hrev2, List.dropWhile_cons, he]
    simp [← hrev2]

theorem pyStrip_ne_nil_of_rev (x : Str) (e : Char) (t : Str)
    (hrev : x.reverse = e :: t) (he : pyIsSpace e = false) : pyStrip x ≠ [] := by
  intro hnil
  rw [pyStrip] at hnil
  rcases hsu : stripStart x with _ | ⟨y, ys⟩
  · have hall : ∀ ch ∈ x, pyIsSpace ch = true := (stripStart_eq_nil_iff x).mp hsu
    have hmem : e ∈ x := List.mem_reverse.mp (by rw [hrev]; exact List.mem_cons_self e t)
    rw [hall e hmem] at he
    exact Bool.noConfusion he
  · obtain ⟨pre, hpre⟩ := List.dropWhile_suffix (l := x) pyIsSpace
    have hLrev : x.reverse = (stripStart x).reverse ++ pre.reverse := by
      conv_lhs => rw [← hpre]
      simp [stripStart]
    rcases hur : (stripStart x).reverse with _ | ⟨e₂, t₃⟩
    · rw [hsu] at hur
      simp at hur
    · have hx2 : x.reverse = e₂ :: (t₃ ++ pre.reverse) := by rw [hLrev, hur]; simp
      rw [hrev] at hx2
      obtain ⟨rfl, -⟩ := List.cons.inj hx2
      have hmem : e ∈ stripStart x :=
        List.mem_reverse.mp (by rw [hur]; exact List.mem_cons_self e t₃)
      have hall : ∀ ch ∈ stripStart x, pyIsSpace ch = true :=
        (stripEnd_eq_nil_iff (stripStart x)).mp hnil
      rw [hall e hmem] at he
      exact Bool.noConfusion he

/-- The reversed tail of a stripped line starts with a non-whitespace
character. -/
theorem tail_rev_not (line : Str) (sign c : Char) (rest : Str)
    (h : pyStrip line = sign :: c :: rest) :
    ∃ e t₂, (c :: rest).reverse = e :: t₂ ∧ pyIsSpace e = false := by
  rcases hrev : (c :: rest).reverse with _ | ⟨e, t₂⟩
  · simp at hrev
  · refine ⟨e, t₂, rfl, ?_⟩
    apply pyStrip_reverse_head_not line e (t₂ ++ [sign])
    rw [h]
    simp [hrev]

/-- The mod name extracted from a kept line is non-empty. -/
theorem emitted_name_ne_nil (line : Str) (sign c : Char) (rest : Str)
    (h : pyStrip line = sign :: c :: rest) : pyStrip (c :: rest) ≠ [] := by
  obtain ⟨e, t₂, hrev, he⟩ := tail_rev_not line sign c rest h
  exact pyStrip_ne_nil_of_rev (c :: rest) e t₂ hrev he

/-- Characterisation of a kept line: the emitted line is the decided sign
followed by the stripped name and a newline. -/
theorem processLine_eq_some (E D : List Str) (line out : Str)
    (h : processLine E D line = some out) :
    ∃ sign c rest, pyStrip line = sign :: c :: rest ∧
      out = (if pyStrip (c :: rest) ∈ E then '+'
             else if pyStrip (c :: rest) ∈ D then '-' else sign)
            :: (pyStrip (c :: rest) ++ ['\n']) := by
  unfold processLine at h
  rcases hps : pyStrip line with _ | ⟨sign, _ | ⟨c, rest⟩⟩
  · rw [hps] at h
    exact absurd h (by simp)
  · rw [hps] at h
    exact absurd h (by simp)
  · rw [hps] at h
    refine ⟨sign, c, rest, rfl, ?_⟩
    by_cases h1 : pyStrip (c :: rest) ∈ E
    · simp only [h1, if_true] at h ⊢
      exact (Option.some.inj h).symm
    · by_cases h2 : pyStrip (c :: rest) ∈ D
      · simp only [h1, h2, if_true, if_false] at h ⊢
        exact (Option.some.inj h).symm
      · simp only [h1, h2, if_false] at h ⊢
        exact (Option.some.inj h).symm

/-- Reduction of `processLine` on a line whose strip is known. -/
theorem processLine_of_strip (E D : List Str) (l : Str) (sign c2 : Char) (rest2 : Str)
    (hps : pyStrip l = sign :: c2 :: rest2) :
    processLine E D l =
      (if pyStrip (c2 :: rest2) ∈ E then some ('+' :: (pyStrip (c2 :: rest2) ++ ['\n']))
       else if pyStrip (c2 :: rest2) ∈ D then some ('-' :: (pyStrip (c2 :: rest2) ++ ['\n']))
       else some (sign :: (pyStrip (c2 :: rest2) ++ ['\n']))) := by
  unfold processLine
  rw [hps]

/-- A line emitted by the rewrite is a fixed point of the rewrite with the
same enabled and disabled sets. -/
theorem processLine_fixpoint (E D : List Str) (line out : Str)
    (h : processLine E D line = some out) :
    processLine E D out = some out := by
  obtain ⟨sign, c, rest, hps, hout⟩ := processLine_eq_some E D line out h
  have hsign : pyIsSpace sign = false := pyStrip_head_not line sign _ hps
  have hne : pyStrip (c :: rest) ≠ [] := emitted_name_ne_nil line sign c rest hps
  have hstr : pyStrip (pyStrip (c :: rest)) = pyStrip (c :: rest) := pyStrip_idem (c :: rest)
  have hsign2 : pyIsSpace (if pyStrip (c :: rest) ∈ E then '+'
      else if pyStrip (c :: rest) ∈ D then '-' else sign) = false := by
    split
    · decide
    · split
      · decide
      · exact hsign
  have hstripout : pyStrip out =
      (if pyStrip (c :: rest) ∈ E then '+'
       else if pyStrip (c :: rest) ∈ D then '-' else sign) :: pyStrip (c :: rest) := by
    rw [hout]
    exact pyStrip_emitted _ _ hsign2 hne hstr
  rcases hn : pyStrip (c :: rest) with _ | ⟨c2, rest2⟩
  · exact absurd hn hne
  · have hname2 : pyStrip (c2 :: rest2) = c2 :: rest2 := by
      rw [← hn]
      exact hstr
    have key := processLine_of_strip E D out _ c2 rest2 (by rw [hstripout, hn])
    rw [key, hname2, ← hn, hout]
    by_cases hE : pyStrip (c :: rest) ∈ E
    · simp [hE]
    · by_cases hD : pyStrip (c :: rest) ∈ D
      · simp [hE, hD]
      · simp [hE, hD]

/-- Stripping ignores a trailing newline. -/
theorem pyStrip_append_newline (l : Str) : pyStrip (l ++ ['\n']) = pyStrip l := by
  rw [pyStrip, pyStrip, stripStart, stripStart, List.dropWhile_append]
  by_cases h : (l.dropWhile pyIsSpace).isEmpty
  · rw [if_pos h, List.isEmpty_iff.mp h]
    simp [List.dropWhile, pyIsSpace]
  · rw [if_neg h]
    exact stripEnd_append_space _ '\n' (by decide)

/-- The accumulator loop of the rewrite is a `filterMap`. -/
theorem modify_loop_eq_filterMap (E D : List Str) (lines acc : List Str) :
    Profile.modify_modlist_loop E D lines acc = acc ++ lines.filterMap (processLine E D) := by
  induction lines generalizing acc with
  | nil => simp [Profile.modify_modlist_loop]
  | cons line rest ih =>
    rw [List.filterMap_cons]
    cases hfx : processLine E D line
    · simp only [Profile.modify_modlist_loop, hfx]
      exact ih acc
    · simp only [Profile.modify_modlist_loop, hfx]
      rw [ih]
      simp

/-- `Profile.modify_modlist_file` emits, in input order, exactly the lines
kept by `processLine`. -/
theorem modify_lines_eq_filterMap (E D : List Str) (lines : List Str) :
    Profile.modify_modlist_lines E D lines = lines.filterMap (processLine E D) := by
  rw [Profile.modify_modlist_lines]
  simpa using modify_loop_eq_filterMap E D lines []

theorem filterMap_of_fixpoints {α : Type} (f : α → Option α) (ls : List α)
    (h : ∀ l ∈ ls, f l = some l) : ls.filterMap f = ls := by
  induction ls with
  | nil => rfl
  | cons a t ih =>
    rw [List.filterMap_cons, h a (List.mem_cons_self a t)]
    rw [ih (fun l hl => h l (List.mem_cons_of_mem a hl))]

/-- Every line produced by `readlines` contains a newline at most as its
final character. -/
theorem readlines_line_shape (s : Str) :
    ∀ l ∈ readlines s, ('\n' ∉ l) ∨ ∃ body, l = body ++ ['\n'] ∧ '\n' ∉ body := by
  induction s with
  | nil =>
    intro l hl
    simp [readlines] at hl
  | cons c cs ih =>
    intro l hl
    by_cases hc : c = '\n'
    · rw [readlines, if_pos (by simp [hc])] at hl
      rcases List.mem_cons.mp hl with h1 | h1
      · subst hc
        exact Or.inr ⟨[], by simp [h1]⟩
      · exact ih l h1
    · rw [readlines, if_neg (by simp [hc])] at hl
      rcases hm : readlines cs with _ | ⟨l₀, ls⟩
      · rw [hm] at hl
        rcases List.mem_cons.mp hl with h1 | h1
        · subst h1
          exact Or.inl (fun hmem => hc (List.mem_singleton.mp hmem).symm)
        · simp at h1
      · rw [hm] at hl
        rcases List.mem_cons.mp hl with h1 | h1
        · subst h1
          rcases ih l₀ (by rw [hm]; exact List.mem_cons_self l₀ ls) with h2 | ⟨body, hb, hbn⟩
          · refine Or.inl ?_
            intro hmem
            rcases List.mem_cons.mp hmem with h3 | h3
            · exact hc h3.symm
            · exact h2 h3
          · refine Or.inr ⟨c :: body, by simp [hb], ?_⟩
            intro hmem
            rcases List.mem_cons.mp hmem with h3 | h3
            · exact hc h3.symm
            · exact hbn h3
        · exact ih l (by rw [hm]; exact List.mem_cons_of_mem l₀ h1)

/-- `readlines` undoes the concatenation of newline-terminated lines. -/
theorem readlines_body_append (body rest : Str) (h : '\n' ∉ body) :
    readlines (body ++ '\n' :: rest) = (body ++ ['\n']) :: readlines rest := by
  induction body with
  | nil => simp [readlines]
  | cons c b ih =>
    have hcne : c ≠ '\n' := fun hcc => h (hcc ▸ List.mem_cons_self c b)
    rw [List.cons_append, readlines, if_neg (by simp [hcne])]
    rw [ih (fun hm => h (List.mem_cons_of_mem c hm))]
    simp

theorem readlines_flatten (ls : List Str)
    (h : ∀ l ∈ ls, ∃ body, l = body ++ ['\n'] ∧ '\n' ∉ body) :
    readlines ls.flatten = ls := by
  induction ls with
  | nil => rfl
  | cons a t ih =>
    obtain ⟨body, ha, hb⟩ := h a (List.mem_cons_self a t)
    rw [List.flatten_cons, ha]
    rw [show (body ++ ['\n']) ++ t.flatten = body ++ '\n' :: t.flatten by simp]
    rw [readlines_body_append body _ hb, ih (fun l hl => h l (List.mem_cons_of_mem a hl))]

/-- A line emitted from a line of an actual file body is newline-terminated
with no interior newline. -/
theorem processLine_out_newline (E D : List Str) (content line out : Str)
    (hline : line ∈ readlines content) (h : processLine E D line = some out) :
    ∃ body, out = body ++ ['\n'] ∧ '\n' ∉ body := by
  obtain ⟨sign, c, rest, hps, hout⟩ := processLine_eq_some E D line out h
  have hsign : pyIsSpace sign = false := pyStrip_head_not line sign _ hps
  have hsign2 : pyIsSpace (if pyStrip (c :: rest) ∈ E then '+'
      else if pyStrip (c :: rest) ∈ D then '-' else sign) = false := by
    split
    · decide
    · split
      · decide
      · exact hsign
  refine ⟨(if pyStrip (c :: rest) ∈ E then '+'
      else if pyStrip (c :: rest) ∈ D then '-' else sign) :: pyStrip (c :: rest),
      by rw [hout]; simp, ?_⟩
  intro hmem
  rcases List.mem_cons.mp hmem with h3 | h3
  · rw [← h3] at hsign2
    exact absurd hsign2 (by decide)
  · have hsub : (pyStrip (c :: rest)).Sublist (pyStrip line) := by
      rw [hps]
      exact (pyStrip_sublist (c :: rest)).trans (List.sublist_cons_self sign (c :: rest))
    have hmem2 : '\n' ∈ pyStrip line := hsub.mem h3
    rcases readlines_line_shape content line hline with hsh | ⟨body₀, hbeq, hbn⟩
    · exact hsh ((pyStrip_sublist line).mem hmem2)
    · rw [hbeq, pyStrip_append_newline] at hmem2
      exact hbn ((pyStrip_sublist body₀).mem hmem2)

/-- C1: for every configuration and every integer vram, `check_vram`
returns true if and only if (`min_vram` is absent or `vram >= min_vram`)
and (`max_vram` is absent or `vram < max_vram`); in particular with
`min_vram = 8` and `max_vram = 12` it matches 8 and 11 and rejects 7
and 12. -/
theorem C1_check_vram_halfopen :
    (∀ (c : Configuration) (vram : Int),
      c.check_vram vram = true ↔
        ((∀ mn, c.min_vram = some mn → mn ≤ vram)
          ∧ (∀ mx, c.max_vram = some mx → vram < mx)))
    ∧ cVram8to12.check_vram 8 = true
    ∧ cVram8to12.check_vram 11 = true
    ∧ cVram8to12.check_vram 7 = false
    ∧ cVram8to12.check_vram 12 = false := by
  refine ⟨?_, by decide, by decide, by decide, by decide⟩
  intro c vram
  rcases c with ⟨n, p, e, d, mn, mx, ar, sl⟩
  cases mn <;> cases mx <;>
    (simp [Configuration.check_vram]; try omega)

/-- C2: the mod-list rewrite emits lines in input order as a `filterMap`
of the per-line transform; for each kept line the emitted sign is `+`
when the name is enabled, else `-` when disabled, else the original
sign; and on lines `+foo`, `-bar`, `+baz` with enabled `bar` it yields
`+foo`, `+bar`, `+baz`. -/
theorem C2_rewrite_order_and_signs :
    (∀ (enabled disabled : List Str) (lines : List Str),
        Profile.modify_modlist_lines enabled disabled lines
          = lines.filterMap (processLine enabled disabled))
    ∧ (∀ (enabled disabled : List Str) (line : Str) (sign c : Char) (rest : Str),
        pyStrip line = sign :: c :: rest →
          processLine enabled disabled line
            = some ((if pyStrip (c :: rest) ∈ enabled then '+'
                     else if pyStrip (c :: rest) ∈ disabled then '-'
                     else sign) :: (pyStrip (c :: rest) ++ ['\n'])))
    ∧ Profile.modify_modlist_content ["bar".toList] [] ("+foo\n-bar\n+baz\n".toList)
        = "+foo\n+bar\n+baz\n".toList := by
  refine ⟨modify_lines_eq_filterMap, ?_, by decide⟩
  intro E D line sign c rest h
  rw [processLine_of_strip E D line sign c rest h]
  by_cases h1 : pyStrip (c :: rest) ∈ E <;> by_cases h2 : pyStrip (c :: rest) ∈ D <;>
    simp [h1, h2]

/-- C2 witness: the rule applied to the concrete line `-bar` with `bar`
enabled. -/
theorem C2_rewrite_order_and_signs_witness :
    pyStrip ("-bar".toList) = '-' :: 'b' :: "ar".toList
    ∧ processLine ["bar".toList] [] ("-bar".toList)
        = some ((if pyStrip ('b' :: "ar".toList) ∈ ["bar".toList] then '+'
                 else if pyStrip ('b' :: "ar".toList) ∈ ([] : List Str) then '-'
                 else '-') :: (pyStrip ('b' :: "ar".toList) ++ ['\n'])) :=
  ⟨by decide,
   C2_rewrite_order_and_signs.2.1 ["bar".toList] [] ("-bar".toList) '-' 'b' ("ar".toList) (by decide)⟩

/-- C6: the mod-list rewrite is idempotent: with fixed enabled and
disabled sets, rewriting the output of a rewrite yields the identical
content. -/
theorem C6_rewrite_idempotent (E D : List Str) (content : Str) :
    Profile.modify_modlist_content E D (Profile.modify_modlist_content E D content)
      = Profile.modify_modlist_content E D content := by
  rw [Profile.modify_modlist_content, Profile.modify_modlist_content]
  have hshape : ∀ out ∈ Profile.modify_modlist_lines E D (readlines content),
      ∃ body, out = body ++ ['\n'] ∧ '\n' ∉ body := by
    intro out hout
    rw [modify_lines_eq_filterMap] at hout
    obtain ⟨line, hline, hpl⟩ := List.mem_filterMap.mp hout
    exact processLine_out_newline E D content line out hline hpl
  rw [readlines_flatten _ hshape]
  have inner : ∀ l ∈ Profile.modify_modlist_lines E D (readlines content),
      processLine E D l = some l := by
    intro l hl
    rw [modify_lines_eq_filterMap] at hl
    obtain ⟨line, hline, hpl⟩ := List.mem_filterMap.mp hl
    exact processLine_fixpoint E D line l hpl
  rw [modify_lines_eq_filterMap E D (Profile.modify_modlist_lines E D (readlines content))]
  rw [filterMap_of_fixpoints _ _ inner]

/-- C10: every emitted line is exactly a one-character non-whitespace
sign followed immediately by the whitespace-stripped mod name and a
newline, so surrounding whitespace of the input line, including
whitespace between sign and name, is removed even for untouched
entries. -/
theorem C10_emitted_normalized (E D : List Str) (line out : Str)
    (h : processLine E D line = some out) :
    ∃ sign name, out = sign :: (name ++ ['\n'])
      ∧ name = pyStrip ((pyStrip line).drop 1)
      ∧ pyStrip name = name
      ∧ name ≠ []
      ∧ pyIsSpace sign = false := by
  obtain ⟨sign, c, rest, hps, hout⟩ := processLine_eq_some E D line out h
  have hsign : pyIsSpace sign = false := pyStrip_head_not line sign _ hps
  refine ⟨_, pyStrip (c :: rest), hout, ?_, pyStrip_idem (c :: rest),
    emitted_name_ne_nil line sign c rest hps, ?_⟩
  · rw [hps]
    rfl
  · split
    · decide
    · split
      · decide
      · exact hsign

/-- C10 witness: the line with spaces around sign and name, in neither
set, is emitted as the sign directly followed by the stripped name. -/
theorem C10_emitted_normalized_witness :
    processLine [] [] ("  +  foo  ".toList) = some ("+foo\n".toList)
    ∧ ∃ sign name, "+foo\n".toList = sign :: (name ++ ['\n'])
      ∧ name = pyStrip ((pyStrip ("  +  foo  ".toList)).drop 1)
      ∧ pyStrip name = name
      ∧ name ≠ []
      ∧ pyIsSpace sign = false :=
  ⟨by decide, C10_emitted_normalized [] [] ("  +  foo  ".toList) ("+foo\n".toList) (by decide)⟩

/-- C5: construction of an aspect ratio fails exactly when a component is
zero, and otherwise stores the input pair divided by its gcd, so the
stored pair has gcd one. -/
theorem C5_construction_reduced (x y : Int) :
    ((∃ e, AspectRatio.mk_checked x y = .error e) ↔ (x = 0 ∨ y = 0))
    ∧ (∀ r, AspectRatio.mk_checked x y = .ok r →
        r.x = x.fdiv (Int.gcd x y) ∧ r.y = y.fdiv (Int.gcd x y)
          ∧ Int.gcd r.x r.y = 1) := by
  by_cases h : x = 0 ∨ y = 0
  · constructor
    · simp [AspectRatio.mk_checked, h]
    · intro r hr
      rw [AspectRatio.mk_checked, if_pos h] at hr
      exact absurd hr (by simp)
  · constructor
    · constructor
      · rintro ⟨e, he⟩
        rw [AspectRatio.mk_checked, if_neg h] at he
        exact absurd he (by simp)
      · intro hc
        exact absurd hc h
    · intro r hr
      simp only [AspectRatio.mk_checked, if_neg h, Except.ok.injEq] at hr
      have hx : x ≠ 0 := fun hh => h (Or.inl hh)
      have hg : 0 < Int.gcd x y := Int.gcd_pos_iff.mpr (Or.inl hx)
      have hgle : (0:Int) ≤ (Int.gcd x y : Int) := by positivity
      have hfx : x.fdiv (Int.gcd x y) = x / (Int.gcd x y) := Int.fdiv_eq_ediv x hgle
      have hfy : y.fdiv (Int.gcd x y) = y / (Int.gcd x y) := Int.fdiv_eq_ediv y hgle
      subst hr
      refine ⟨rfl, rfl, ?_⟩
      rw [hfx, hfy]
      exact Int.gcd_div_gcd_div_gcd hg

/-- C5 witness: input 16, 10 constructs the reduced pair 8, 5. -/
theorem C5_construction_reduced_witness :
    AspectRatio.mk_checked 16 10 = .ok ⟨8, 5⟩
    ∧ ((⟨8, 5⟩ : AspectRatio).x = (16:Int).fdiv (Int.gcd 16 10)
        ∧ (⟨8, 5⟩ : AspectRatio).y = (10:Int).fdiv (Int.gcd 16 10)
        ∧ Int.gcd (⟨8, 5⟩ : AspectRatio).x (⟨8, 5⟩ : AspectRatio).y = 1) :=
  ⟨by decide, (C5_construction_reduced 16 10).2 ⟨8, 5⟩ (by decide)⟩

/-- C4 counterexample: the string `0:5` splits into two integer-parseable
substrings, yet `from_string` raises the constructor ValueError to its
caller instead of returning an object or None. -/
theorem C4_counterexample_raises :
    parsePair ("0:5".toList) = some (0, 5)
    ∧ AspectRatio.from_string (some ("0:5".toList))
        = .error ("Aspect ratio dimensions must be non-zero.".toList) := by
  constructor
  · decide
  · decide

/-- C4 amended: `from_string` of None is None; of a string it returns
None exactly when the string does not split on `:` into exactly two
integer-parseable substrings; when it does split, it raises exactly when
a parsed component is zero and otherwise returns an object. -/
theorem C4_from_string_amended :
    AspectRatio.from_string none = .ok none
    ∧ ∀ s : Str,
      (AspectRatio.from_string (some s) = .ok none ↔ parsePair s = none)
      ∧ ((∃ e, AspectRatio.from_string (some s) = .error e)
          ↔ (∃ x y, parsePair s = some (x, y) ∧ (x = 0 ∨ y = 0)))
      ∧ ((∃ r, AspectRatio.from_string (some s) = .ok (some r))
          ↔ (∃ x y, parsePair s = some (x, y) ∧ x ≠ 0 ∧ y ≠ 0)) := by
  refine ⟨rfl, ?_⟩
  intro s
  cases hp : parsePair s with
  | none => simp [AspectRatio.from_string, hp]
  | some xy =>
    obtain ⟨x, y⟩ := xy
    by_cases hz : x = 0 ∨ y = 0
    · refine ⟨?_, ?_, ?_⟩
      · simp [AspectRatio.from_string, hp, AspectRatio.mk_checked, hz, Except.map]
      · simp only [AspectRatio.from_string, hp, AspectRatio.mk_checked, if_pos hz]
        constructor
        · intro _
          exact ⟨x, y, rfl, hz⟩
        · intro _
          exact ⟨_, rfl⟩
      · simp only [AspectRatio.from_string, hp, AspectRatio.mk_checked, if_pos hz]
        constructor
        · rintro ⟨r, hr⟩
          exact absurd hr (by simp [Except.map])
        · rintro ⟨x2, y2, hxy, hx2, hy2⟩
          obtain ⟨rfl, rfl⟩ := Prod.mk.inj (Option.some.inj hxy)
          rcases hz with hz | hz
          · exact absurd hz hx2
          · exact absurd hz hy2
    · refine ⟨?_, ?_, ?_⟩
      · simp [AspectRatio.from_string, hp, AspectRatio.mk_checked, hz, Except.map]
      · simp only [AspectRatio.from_string, hp, AspectRatio.mk_checked, if_neg hz]
        constructor
        · rintro ⟨e, he⟩
          exact absurd he (by simp [Except.map])
        · rintro ⟨x2, y2, hxy, hzz⟩
          obtain ⟨rfl, rfl⟩ := Prod.mk.inj (Option.some.inj hxy)
          exact absurd hzz hz
      · simp only [AspectRatio.from_string, hp, AspectRatio.mk_checked, if_neg hz]
        constructor
        · intro _
          refine ⟨x, y, rfl, ?_, ?_⟩
          · exact fun hh => hz (Or.inl hh)
          · exact fun hh => hz (Or.inr hh)
        · intro _
          exact ⟨⟨x.fdiv (Int.gcd x y), y.fdiv (Int.gcd x y)⟩, by simp [Except.map]⟩

/-- C4 amended witness: the string `16:10` parses and yields an object. -/
theorem C4_from_string_amended_witness :
    parsePair ("16:10".toList) = some (16, 10)
    ∧ ∃ r, AspectRatio.from_string (some ("16:10".toList)) = .ok (some r) :=
  ⟨by decide,
   (C4_from_string_amended.2 ("16:10".toList)).2.2.mpr
     ⟨16, 10, by decide, by decide, by decide⟩⟩

/-- C3: every name in both the deduplicated enable and disable
collections is removed from the disable collection before the rewrite,
and with enable and disable both naming group A, where A maps to modX,
the rewrite is invoked with modX enabled and nothing disabled. -/
theorem C3_enable_wins :
    (∀ (c : Configuration) (ml : ModLists) (e d : List Str),
        c.doModAction ml = some (e, d) → ∀ n ∈ e, n ∉ d)
    ∧ cGroupA.doModAction mlGroupA = some (["modX".toList], []) := by
  refine ⟨?_, by decide⟩
  intro c ml e d h n hne hnd
  simp only [Configuration.doModAction] at h
  by_cases hcond : resolveMods c.enable_mods ml = [] ∧ resolveMods c.disable_mods ml = []
  · rw [if_pos hcond] at h
    exact absurd h (by simp)
  · rw [if_neg hcond] at h
    simp only [Option.some.injEq, Prod.mk.injEq] at h
    obtain ⟨he, hd⟩ := h
    subst he
    subst hd
    have := List.mem_filter.mp hnd
    exact absurd hne (of_decide_eq_true this.2)

/-- C3 witness: the conflict rule applied to the concrete configuration
with group A on both sides. -/
theorem C3_enable_wins_witness :
    cGroupA.doModAction mlGroupA = some (["modX".toList], [])
    ∧ "modX".toList ∉ ([] : List Str) :=
  ⟨by decide,
   C3_enable_wins.1 cGroupA mlGroupA ["modX".toList] [] (by decide) ("modX".toList) (by decide)⟩

/-- Applying a configuration whose profile is set and available switches
the active profile to it. -/
theorem do_profile_set (c : Configuration) (profiles : List Str) (ml : ModLists)
    (s : EnvState) (p : Str) (hp : c.profile = some p) (hmem : p ∈ profiles) :
    (c.do profiles ml s).selected_profile = some p := by
  rw [Configuration.do, hp]
  cases c.doModAction ml with
  | none => simp [hmem]
  | some pair =>
    cases pair
    simp [hmem]

/-- Applying a configuration that does not set an available profile
leaves the active profile unchanged. -/
theorem do_profile_preserve (c : Configuration) (profiles : List Str) (ml : ModLists)
    (s : EnvState) (h : ∀ q, c.profile = some q → q ∉ profiles) :
    (c.do profiles ml s).selected_profile = s.selected_profile := by
  rw [Configuration.do]
  cases hq : c.profile with
  | none =>
    cases c.doModAction ml with
    | none => rfl
    | some pair =>
      cases pair
      rfl
  | some q =>
    cases c.doModAction ml with
    | none => simp [h q hq]
    | some pair =>
      cases pair
      simp [h q hq]

/-- Running the matching pass over a list of configurations none of which
sets an available profile leaves the active profile unchanged. -/
theorem set_configuration_profile_preserve (profiles : List Str) (ml : ModLists)
    (vram : Int) (ratio lang : Str) :
    ∀ (l : List Configuration) (s sfin : EnvState),
      (∀ c2 ∈ l, c2.check vram ratio lang = .ok true →
        ∀ q, c2.profile = some q → q ∉ profiles) →
      set_configuration profiles ml vram ratio lang l s = .ok sfin →
      sfin.selected_profile = s.selected_profile := by
  intro l
  induction l with
  | nil =>
    intro s sfin _ hrun
    simp only [set_configuration] at hrun
    rw [← Except.ok.inj hrun]
  | cons c2 rest ih =>
    intro s sfin hall hrun
    simp only [set_configuration] at hrun
    cases hchk : c2.check vram ratio lang with
    | error e =>
      rw [hchk] at hrun
      exact absurd hrun (by simp)
    | ok b =>
      rw [hchk] at hrun
      cases b with
      | false =>
        simp only [if_neg Bool.false_ne_true] at hrun
        exact ih s sfin (fun c hc => hall c (List.mem_cons_of_mem c2 hc)) hrun
      | true =>
        simp only [if_pos rfl] at hrun
        have hpres : (c2.do profiles ml s).selected_profile = s.selected_profile :=
          do_profile_preserve c2 profiles ml s
            (hall c2 (List.mem_cons_self c2 rest) hchk)
        rw [← hpres]
        exact ih _ sfin (fun c hc => hall c (List.mem_cons_of_mem c2 hc)) hrun

/-- C7: the pass applies matching configurations in list order (running a
concatenation runs the first part, then the second on the resulting
state), and when a matching configuration sets an available profile and
no later one does, the final active profile is the one it set. -/
theorem C7_matching_applied_in_order :
    (∀ (profiles : List Str) (ml : ModLists) (vram : Int) (ratio lang : Str)
        (l1 l2 : List Configuration) (s : EnvState),
        set_configuration profiles ml vram ratio lang (l1 ++ l2) s
          = match set_configuration profiles ml vram ratio lang l1 s with
            | .ok s2 => set_configuration profiles ml vram ratio lang l2 s2
            | .error e => .error e)
    ∧ (∀ (profiles : List Str) (ml : ModLists) (vram : Int) (ratio lang : Str)
        (l1 l2 : List Configuration) (c : Configuration) (p : Str) (s sfin : EnvState),
        c.check vram ratio lang = .ok true →
        c.profile = some p →
        p ∈ profiles →
        (∀ c2 ∈ l2, c2.check vram ratio lang = .ok true →
          ∀ q, c2.profile = some q → q ∉ profiles) →
        set_configuration profiles ml vram ratio lang (l1 ++ c :: l2) s = .ok sfin →
        sfin.selected_profile = some p) := by
  have comp : ∀ (profiles : List Str) (ml : ModLists) (vram : Int) (ratio lang : Str)
      (l1 l2 : List Configuration) (s : EnvState),
      set_configuration profiles ml vram ratio lang (l1 ++ l2) s
        = match set_configuration profiles ml vram ratio lang l1 s with
          | .ok s2 => set_configuration profiles ml vram ratio lang l2 s2
          | .error e => .error e := by
    intro profiles ml vram ratio lang l1
    induction l1 with
    | nil =>
      intro l2 s
      simp only [List.nil_append, set_configuration]
    | cons c l1 ih =>
      intro l2 s
      simp only [List.cons_append, set_configuration]
      cases hchk : c.check vram ratio lang with
      | error e => rfl
      | ok b => exact ih l2 _
  refine ⟨comp, ?_⟩
  intro profiles ml vram ratio lang l1 l2 c p s sfin hcheck hp hmem hafter hrun
  rw [comp profiles ml vram ratio lang l1 (c :: l2) s] at hrun
  cases hs1 : set_configuration profiles ml vram ratio lang l1 s with
  | error e =>
    rw [hs1] at hrun
    exact absurd hrun (by simp)
  | ok s1 =>
    rw [hs1] at hrun
    simp only [set_configuration, hcheck, if_pos rfl] at hrun
    have hfin := set_configuration_profile_preserve profiles ml vram ratio lang l2
      (c.do profiles ml s1) sfin hafter hrun
    rw [hfin]
    exact do_profile_set c profiles ml s1 p hp hmem

/-- C7 witness: two predicate-free configurations selecting P1 then P2:
the run succeeds and the final profile is P2. -/
theorem C7_matching_applied_in_order_witness :
    cProf2.check 0 [] [] = .ok true
    ∧ cProf2.profile = some ("P2".toList)
    ∧ "P2".toList ∈ ["P1".toList, "P2".toList]
    ∧ set_configuration ["P1".toList, "P2".toList] [] 0 [] [] ([cProf1] ++ cProf2 :: [])
        { selected_profile := none, modlist := [] }
        = .ok { selected_profile := some ("P2".toList), modlist := [] }
    ∧ (EnvState.mk (some ("P2".toList)) []).selected_profile = some ("P2".toList) :=
  ⟨by decide, rfl, by decide, by decide,
   C7_matching_applied_in_order.2 ["P1".toList, "P2".toList] [] 0 [] []
     [cProf1] [] cProf2 ("P2".toList)
     { selected_profile := none, modlist := [] }
     { selected_profile := some ("P2".toList), modlist := [] }
     (by decide) rfl (by decide)
     (fun c2 hc2 => absurd hc2 (List.not_mem_nil c2))
     (by decide)⟩

/-- Lookup in an extended dictionary is unchanged for present keys. -/
theorem lookup_append_left (m rest : ModLists) (k : Str) (h : (List.lookup k m).isSome) :
    List.lookup k (m ++ rest) = List.lookup k m := by
  induction m with
  | nil => simp [List.lookup] at h
  | cons kv m ih =>
    obtain ⟨a, b⟩ := kv
    rw [List.cons_append]
    by_cases hk : k == a
    · simp [List.lookup, hk]
    · simp only [List.lookup, hk] at h ⊢
      exact ih h

/-- Lookup of a fresh key appended at the end of a dictionary. -/
theorem lookup_append_fresh (m : ModLists) (k : Str) (v : List Str)
    (h : List.lookup k m = none) :
    List.lookup k (m ++ [(k, v)]) = some v := by
  induction m with
  | nil => simp [List.lookup]
  | cons kv m ih =>
    obtain ⟨a, b⟩ := kv
    rw [List.cons_append]
    by_cases hk : k == a
    · simp [List.lookup, hk] at h
    · simp only [List.lookup, hk] at h ⊢
      exact ih h

/-- `addEmptyKeys` preserves the value of every present key. -/
theorem addEmptyKeys_preserve (ns : List Str) (m : ModLists) (k : Str)
    (h : (List.lookup k m).isSome) :
    List.lookup k (addEmptyKeys m ns) = List.lookup k m := by
  induction ns generalizing m with
  | nil => rfl
  | cons n ns ih =>
    rw [addEmptyKeys, List.foldl_cons]
    by_cases hn : (List.lookup n m).isSome
    · rw [if_pos hn]
      exact ih m h
    · rw [if_neg hn]
      have hpres : List.lookup k (m ++ [(n, [])]) = List.lookup k m :=
        lookup_append_left m [(n, [])] k h
      have := ih (m ++ [(n, [])]) (by rw [hpres]; exact h)
      rw [addEmptyKeys] at this
      rw [this, hpres]

/-- After `addEmptyKeys`, every added name is a key. -/
theorem addEmptyKeys_mem (ns : List Str) (m : ModLists) (k : Str) (hk : k ∈ ns) :
    (List.lookup k (addEmptyKeys m ns)).isSome := by
  induction ns generalizing m with
  | nil => simp at hk
  | cons n ns ih =>
    rw [addEmptyKeys, List.foldl_cons]
    rcases List.mem_cons.mp hk with rfl | hk2
    · by_cases hn : (List.lookup k m).isSome
      · rw [if_pos hn]
        have := addEmptyKeys_preserve ns m k hn
        rw [addEmptyKeys] at this
        rw [this]
        exact hn
      · rw [if_neg hn]
        have hnone : List.lookup k m = none := by
          cases hlk : List.lookup k m
          · rfl
          · rw [hlk] at hn
            simp at hn
        have hfresh : List.lookup k (m ++ [(k, [])]) = some [] :=
          lookup_append_fresh m k [] hnone
        have := addEmptyKeys_preserve ns (m ++ [(k, [])]) k (by rw [hfresh]; simp)
        rw [addEmptyKeys] at this
        rw [this, hfresh]
        simp
    · by_cases hn : (List.lookup n m).isSome
      · rw [if_pos hn]
        exact ih m hk2
      · rw [if_neg hn]
        exact ih (m ++ [(n, [])]) hk2

/-- `addEmptyKeys` only adds empty values. -/
theorem addEmptyKeys_values (ns : List Str) (m : ModLists)
    (h : ∀ kv ∈ m, kv.2 = ([] : List Str)) :
    ∀ kv ∈ addEmptyKeys m ns, kv.2 = ([] : List Str) := by
  induction ns generalizing m with
  | nil => exact h
  | cons n ns ih =>
    rw [addEmptyKeys, List.foldl_cons]
    by_cases hn : (List.lookup n m).isSome
    · rw [if_pos hn]
      exact ih m h
    · rw [if_neg hn]
      refine ih (m ++ [(n, [])]) ?_
      intro kv hkv
      rcases List.mem_append.mp hkv with h1 | h1
      · exact h kv h1
      · rw [List.mem_singleton.mp h1]

theorem fillModLists_cons (cfg : IniConfig) (kv : Str × List Str) (m : ModLists) :
    fillModLists cfg (kv :: m)
      = (match cfg.findSection kv.1 with
         | some sec => (kv.1, sec.modsV)
         | none => kv) :: fillModLists cfg m := rfl

/-- Resolving group sections does not change which names are keys. -/
theorem fill_preserve_isSome (cfg : IniConfig) (m : ModLists) (k : Str) :
    (List.lookup k (fillModLists cfg m)).isSome = (List.lookup k m).isSome := by
  induction m with
  | nil => rfl
  | cons kv m ih =>
    obtain ⟨a, b⟩ := kv
    rw [fillModLists_cons]
    cases hfs : cfg.findSection a
    · simp only [hfs]
      by_cases hk : k == a
      · simp [List.lookup, hk]
      · simp only [List.lookup, hk]
        exact ih
    · simp only [hfs]
      by_cases hk : k == a
      · simp [List.lookup, hk]
      · simp only [List.lookup, hk]
        exact ih

/-- A key with no section of its name keeps its empty list through the
resolution pass. -/
theorem fill_nosection (cfg : IniConfig) (m : ModLists) (k : Str)
    (hns : cfg.findSection k = none)
    (hvals : ∀ kv ∈ m, kv.2 = ([] : List Str))
    (h : (List.lookup k m).isSome) :
    List.lookup k (fillModLists cfg m) = some [] := by
  induction m with
  | nil => simp [List.lookup] at h
  | cons kv m ih =>
    obtain ⟨a, b⟩ := kv
    rw [fillModLists_cons]
    by_cases hk : k == a
    · have hka : k = a := eq_of_beq hk
      subst hka
      simp only [hns]
      have hb : b = [] := hvals (k, b) (List.mem_cons_self (k, b) m)
      subst hb
      simp [List.lookup]
    · have htail : (List.lookup k m).isSome := by
        simp only [List.lookup, hk] at h
        exact h
      have := ih (fun kv hkv => hvals kv (List.mem_cons_of_mem (a, b) hkv)) htail
      cases hfs : cfg.findSection a
      · simp only [hfs, List.lookup, hk]
        exact this
      · simp only [hfs, List.lookup, hk]
        exact this

/-- Shape of a successful `loadStep`: either the section name is skipped,
or one configuration is appended and its referenced group names are
registered as keys. -/
theorem loadStep_ok (cfg : IniConfig) (acc : List Configuration × ModLists) (n : Str)
    (out : List Configuration × ModLists) (h : loadStep cfg acc n = .ok out) :
    out = acc
    ∨ ∃ newc : Configuration,
        out.1 = acc.1 ++ [newc]
        ∧ out.2 = addEmptyKeys (addEmptyKeys acc.2 newc.enable_mods) newc.disable_mods := by
  rw [loadStep] at h
  cases hfs : cfg.findSection n with
  | none =>
    rw [hfs] at h
    exact Or.inl (Except.ok.inj h).symm
  | some sec =>
    rw [hfs] at h
    simp only at h
    cases har : AspectRatio.from_string
        (if sec.aspectRatioV = [] then none else some sec.aspectRatioV) with
    | error e =>
      rw [har] at h
      exact absurd h (by simp)
    | ok ar =>
      rw [har] at h
      refine Or.inr ⟨⟨n, (if sec.profileV = [] then none else some sec.profileV),
        splitModsValue sec.enableModsV, splitModsValue sec.disableModsV,
        int_or_none sec.minVramV, int_or_none sec.maxVramV, ar,
        (if sec.systemLanguageV = [] then none else some sec.systemLanguageV)⟩, ?_, ?_⟩
      · rw [← Except.ok.inj h]
      · rw [← Except.ok.inj h]

/-- Invariant of the section loop: every group name referenced by an
accumulated configuration is a key of the accumulated mapping, and every
accumulated value is the empty list. -/
theorem loadLoop_invariant (cfg : IniConfig) :
    ∀ (names : List Str) (acc out : List Configuration × ModLists),
      loadLoop cfg names acc = .ok out →
      (∀ c ∈ acc.1, ∀ m, (m ∈ c.enable_mods ∨ m ∈ c.disable_mods) →
        (List.lookup m acc.2).isSome) →
      (∀ kv ∈ acc.2, kv.2 = ([] : List Str)) →
      (∀ c ∈ out.1, ∀ m, (m ∈ c.enable_mods ∨ m ∈ c.disable_mods) →
        (List.lookup m out.2).isSome)
      ∧ (∀ kv ∈ out.2, kv.2 = ([] : List Str)) := by
  intro names
  induction names with
  | nil =>
    intro acc out h h1 h2
    simp only [loadLoop] at h
    rw [← Except.ok.inj h]
    exact ⟨h1, h2⟩
  | cons n names ih =>
    intro acc out h h1 h2
    simp only [loadLoop] at h
    cases hstep : loadStep cfg acc n with
    | error e =>
      rw [hstep] at h
      exact absurd h (by simp)
    | ok acc2 =>
      rw [hstep] at h
      rcases loadStep_ok cfg acc n acc2 hstep with rfl | ⟨newc, hfst, hsnd⟩
      · exact ih _ out h h1 h2
      · refine ih acc2 out h ?_ ?_
        · intro c hc m hm
          rw [hfst] at hc
          rcases List.mem_append.mp hc with hc1 | hc1
          · have hold := h1 c hc1 m hm
            rw [hsnd]
            have p1 := addEmptyKeys_preserve newc.enable_mods acc.2 m hold
            have p2 := addEmptyKeys_preserve newc.disable_mods
              (addEmptyKeys acc.2 newc.enable_mods) m (by rw [p1]; exact hold)
            rw [p2, p1]
            exact hold
          · rw [List.mem_singleton.mp hc1] at hm
            rw [hsnd]
            rcases hm with hm | hm
            · have p1 := addEmptyKeys_mem newc.enable_mods acc.2 m hm
              have p2 := addEmptyKeys_preserve newc.disable_mods
                (addEmptyKeys acc.2 newc.enable_mods) m p1
              rw [p2]
              exact p1
            · exact addEmptyKeys_mem newc.disable_mods _ m hm
        · intro kv hkv
          rw [hsnd] at hkv
          exact addEmptyKeys_values _ _ (addEmptyKeys_values _ _ h2) kv hkv

/-- Keys facts shared by the loader claims: the final mapping is the
resolution pass applied to a mapping whose values are all empty and whose
keys cover every referenced group name. -/
theorem load_keys_aux (cfg : IniConfig) (cfgs : List Configuration) (ml : ModLists)
    (h : Configuration.load_configurations cfg = .ok (cfgs, ml)) :
    ∃ ml0 : ModLists, ml = fillModLists cfg ml0
      ∧ (∀ kv ∈ ml0, kv.2 = ([] : List Str))
      ∧ (∀ c ∈ cfgs, ∀ m, (m ∈ c.enable_mods ∨ m ∈ c.disable_mods) →
          (List.lookup m ml0).isSome = true) := by
  rw [Configuration.load_configurations] at h
  cases hloop : loadLoop cfg (pySplit ',' cfg.settingsValue) ([], []) with
  | error e =>
    rw [hloop] at h
    exact absurd h (by simp)
  | ok acc =>
    rw [hloop] at h
    obtain ⟨settings, ml0⟩ := acc
    obtain ⟨hs, hm2⟩ := Prod.mk.inj (Except.ok.inj h)
    have hinv := loadLoop_invariant cfg _ ([], []) (settings, ml0) hloop
      (by intro c2 hc2 m2 hm3; simp at hc2) (by intro kv hkv; simp at hkv)
    refine ⟨ml0, hm2.symm, hinv.2, ?_⟩
    rw [← hs]
    exact hinv.1

/-- C8: after loading, every group name referenced in any loaded rule is
a key of the returned mapping, and a referenced group with no section of
that name maps to the empty mod list rather than being a missing key. -/
theorem C8_referenced_groups_are_keys (cfg : IniConfig) (cfgs : List Configuration)
    (ml : ModLists) (h : Configuration.load_configurations cfg = .ok (cfgs, ml)) :
    ∀ c ∈ cfgs, ∀ m, (m ∈ c.enable_mods ∨ m ∈ c.disable_mods) →
      (List.lookup m ml).isSome = true
      ∧ (cfg.has_section m = false → List.lookup m ml = some []) := by
  intro c hc m hm
  obtain ⟨ml0, hfill, hvals, hkeys⟩ := load_keys_aux cfg cfgs ml h
  have hkey := hkeys c hc m hm
  constructor
  · rw [hfill, fill_preserve_isSome]
    exact hkey
  · intro hns
    rw [hfill]
    refine fill_nosection cfg ml0 m ?_ hvals hkey
    rw [IniConfig.has_section] at hns
    cases hfs : cfg.findSection m
    · rfl
    · rw [hfs] at hns
      simp at hns

/-- C8 witness: a rule referencing an undefined group `LowGroup` still
yields `LowGroup` as a key, mapped to the empty list. -/
theorem C8_referenced_groups_are_keys_witness :
    Configuration.load_configurations iniLow
      = .ok ([{ name := "Low".toList, profile := none,
                enable_mods := ["LowGroup".toList], disable_mods := [] }],
             [("LowGroup".toList, [])])
    ∧ ((List.lookup ("LowGroup".toList) [("LowGroup".toList, ([] : List Str))]).isSome = true
        ∧ (iniLow.has_section ("LowGroup".toList) = false →
            List.lookup ("LowGroup".toList) [("LowGroup".toList, ([] : List Str))] = some [])) :=
  ⟨by decide,
   C8_referenced_groups_are_keys iniLow
     [{ name := "Low".toList, profile := none,
        enable_mods := ["LowGroup".toList], disable_mods := [] }]
     [("LowGroup".toList, [])] (by decide)
     { name := "Low".toList, profile := none,
       enable_mods := ["LowGroup".toList], disable_mods := [] }
     (by decide) ("LowGroup".toList) (Or.inl (by decide))⟩

/-- C9: for the pair returned by the loader, every name in every
configuration's enable and disable lists is a key of the mapping, so the
missing-mod-list error branches of `Configuration.do` are unreachable. -/
theorem C9_loader_refs_resolve (cfg : IniConfig) (cfgs : List Configuration)
    (ml : ModLists) (h : Configuration.load_configurations cfg = .ok (cfgs, ml)) :
    ∀ c ∈ cfgs,
      (∀ m, (m ∈ c.enable_mods ∨ m ∈ c.disable_mods) → (List.lookup m ml).isSome = true)
      ∧ doMissingRefs c ml = [] := by
  intro c hc
  obtain ⟨ml0, hfill, hvals, hkeys0⟩ := load_keys_aux cfg cfgs ml h
  have hkeys : ∀ m, (m ∈ c.enable_mods ∨ m ∈ c.disable_mods) →
      (List.lookup m ml).isSome = true := by
    intro m hm
    rw [hfill, fill_preserve_isSome]
    exact hkeys0 c hc m hm
  refine ⟨hkeys, ?_⟩
  rw [doMissingRefs]
  have he : c.enable_mods.filter (fun m => (List.lookup m ml).isNone) = [] := by
    rw [List.filter_eq_nil_iff]
    intro m hm
    simp only [Option.isNone_iff_eq_none]
    intro hcon
    have := hkeys m (Or.inl hm)
    rw [hcon] at this
    simp at this
  have hd : c.disable_mods.filter (fun m => (List.lookup m ml).isNone) = [] := by
    rw [List.filter_eq_nil_iff]
    intro m hm
    simp only [Option.isNone_iff_eq_none]
    intro hcon
    have := hkeys m (Or.inr hm)
    rw [hcon] at this
    simp at this
  rw [he, hd]
  rfl

/-- C9 witness: the loaded rule of the `Low` file resolves all its
references and hits no error branch. -/
theorem C9_loader_refs_resolve_witness :
    Configuration.load_configurations iniLow
      = .ok ([{ name := "Low".toList, profile := none,
                enable_mods := ["LowGroup".toList], disable_mods := [] }],
             [("LowGroup".toList, [])])
    ∧ doMissingRefs
        { name := "Low".toList, profile := none,
          enable_mods := ["LowGroup".toList], disable_mods := [] }
        [("LowGroup".toList, ([] : List Str))] = [] :=
  ⟨by decide,
   (C9_loader_refs_resolve iniLow
     [{ name := "Low".toList, profile := none,
        enable_mods := ["LowGroup".toList], disable_mods := [] }]
     [("LowGroup".toList, [])] (by decide)
     { name := "Low".toList, profile := none,
       enable_mods := ["LowGroup".toList], disable_mods := [] }
     (by decide)).2⟩

/-- C1 witness: the half-open predicate evaluated at vram 9 for the bound
pair 8 and 12. -/
theorem C1_check_vram_halfopen_witness :
    cVram8to12.check_vram 9 = true
    ∧ ((∀ mn, cVram8to12.min_vram = some mn → mn ≤ (9:Int))
        ∧ (∀ mx, cVram8to12.max_vram = some mx → (9:Int) < mx)) :=
  ⟨by decide, (C1_check_vram_halfopen.1 cVram8to12 9).mp (by decide)⟩
